import Mathlib

set_option maxRecDepth 40000

/-! # Verification of the MD5 compression core (noble-hashes, `src/md5.ts`)

Shallow embedding of the `MD5` class of `src/md5.ts`.  Machine words are
`Nat` values reduced modulo `2 ^ 32` at the points where JavaScript
coerces to 32 bits (`| 0`, bitwise operators, `Uint32Array` stores).
Byte buffers and the `Uint32Array` scratch buffer are `List Nat`.  The
fallible `DataView.getUint32` read returns `Option` (`none` models the
thrown `RangeError`).

The helpers `Chi`, `rotl` (from `utils.js`) and the `HashMD` base class
(from `_md.js`) are not among the given sources; where needed they are
modelled from the spec, and each such definition says so in its
doc comment. -/

/-- Per-round constant table `MD5_K` of `md5.ts` (64 unsigned 32-bit values). -/
def MD5_K : List Nat := [
  0xd76aa478, 0xe8c7b756, 0x242070db, 0xc1bdceee, 0xf57c0faf, 0x4787c62a, 0xa8304613, 0xfd469501,
  0x698098d8, 0x8b44f7af, 0xffff5bb1, 0x895cd7be, 0x6b901122, 0xfd987193, 0xa679438e, 0x49b40821,
  0xf61e2562, 0xc040b340, 0x265e5a51, 0xe9b6c7aa, 0xd62f105d, 0x2441453,  0xd8a1e681, 0xe7d3fbc8,
  0x21e1cde6, 0xc33707d6, 0xf4d50d87, 0x455a14ed, 0xa9e3e905, 0xfcefa3f8, 0x676f02d9, 0x8d2a4c8a,
  0xfffa3942, 0x8771f681, 0x6d9d6122, 0xfde5380c, 0xa4beea44, 0x4bdecfa9, 0xf6bb4b60, 0xbebfbc70,
  0x289b7ec6, 0xeaa127fa, 0xd4ef3085, 0x4881d05, 0xd9d4d039, 0xe6db99e5, 0x1fa27cf8, 0xc4ac5665,
  0xf4292244, 0x432aff97, 0xab9423a7, 0xfc93a039, 0x655b59c3, 0x8f0ccc92, 0xffeff47d, 0x85845dd1,
  0x6fa87e4f, 0xfe2ce6e0, 0xa3014314, 0x4e0811a1, 0xf7537e82, 0xbd3af235, 0x2ad7d2bb, 0xeb86d391]

/-- Initial state `IV` of `md5.ts`. -/
def IV : List Nat := [0x67452301, 0xefcdab89, 0x98badcfe, 0x10325476]

/-- JavaScript 32-bit bitwise complement `~x`, for `x < 2 ^ 32`. -/
def not32 (x : Nat) : Nat := 0xFFFFFFFF ^^^ x

/-- Modelled from the spec: `Chi` is imported by `md5.ts` from the
repository's `utils` module, which is not among the given sources.  The
spec's phase-1 round row fixes its value: `F(B,C,D) = (B ∧ C) ∨ (¬B ∧ D)`,
that is, `Chi a b c = (a ∧ b) ∨ (¬a ∧ c)` bitwise on 32-bit words. -/
def Chi (a b c : Nat) : Nat := (a &&& b) ||| (not32 a &&& c)

/-- Modelled from the spec: `rotl` is imported by `md5.ts` from the
repository's `utils` module, which is not among the given sources.  The
spec's glossary fixes it: `rotl32(x, n)` is left rotation of a 32-bit
word by `n` bits. -/
def rotl (x n : Nat) : Nat := ((x <<< n) ||| (x >>> (32 - n))) % 2 ^ 32

/-- The `MD5` instance state: the four `HashState` words `A`, `B`, `C`,
`D` of `md5.ts`, plus the retained block buffer.  The buffer field is
modelled from the spec: it lives in the `HashMD` base class (`_md.js`),
which is not among the given sources; the spec says the adapter retains
a byte buffer which `destroy()` zero-fills. -/
structure MD5 where
  A : Nat
  B : Nat
  C : Nat
  D : Nat
  buffer : List Nat
  deriving DecidableEq

/-- Construction: the words start at `IV[0] | 0 .. IV[3] | 0`; the
buffer is the fresh 64-byte block buffer (`blockLen = 64` is the first
argument of the `super(64, 16, 8, true)` call). -/
def MD5.init : MD5 :=
  ⟨IV.getD 0 0, IV.getD 1 0, IV.getD 2 0, IV.getD 3 0, List.replicate 64 0⟩

/-- Embedding of `MD5.get`: the state as the ordered 4-tuple. -/
def MD5.get (st : MD5) : Nat × Nat × Nat × Nat := (st.A, st.B, st.C, st.D)

/-- Embedding of `MD5.set`: each component stored through JavaScript
`| 0`, i.e. truncated to 32 bits. -/
def MD5.set (st : MD5) (a b c d : Nat) : MD5 :=
  { st with A := a % 2 ^ 32, B := b % 2 ^ 32, C := c % 2 ^ 32, D := d % 2 ^ 32 }

/-- The little-endian 32-bit word made of the 4 bytes of `view` at
offsets `off .. off + 3`. -/
def leWordAt (view : List Nat) (off : Nat) : Nat :=
  view.getD off 0 + view.getD (off + 1) 0 * 2 ^ 8 +
    view.getD (off + 2) 0 * 2 ^ 16 + view.getD (off + 3) 0 * 2 ^ 24

/-- Embedding of `DataView.getUint32(off, true)`: a little-endian 4-byte
read, `none` (a thrown `RangeError`) when the read would pass the end of
the view. -/
def getUint32le (view : List Nat) (off : Nat) : Option Nat :=
  if off + 4 ≤ view.length then some (leWordAt view off) else none

/-- The loop `for (let i = 0; i < 16; i++, offset += 4) MD5_W[i] =
view.getUint32(offset, true)` of `MD5.process`: `i` is the next slot of
the scratch buffer `w` to store into, `k` the number of iterations that
remain. -/
def fillWGo (view : List Nat) : Nat → Nat → Nat → List Nat → Option (List Nat)
  | _, _, 0, w => some w
  | off, i, k + 1, w =>
    match getUint32le view off with
    | none => none
    | some x => fillWGo view (off + 4) (i + 1) k (w.set i x)

/-- The complete 16-word load of `MD5.process`. -/
def fillW (view : List Nat) (off : Nat) (w : List Nat) : Option (List Nat) :=
  fillWGo view off 0 16 w

/-- Round `i` of the 64-round loop of `MD5.process`, acting on the
working tuple `(A, B, C, D)`: the branch on `i`, the sums feeding `F`,
and the state rotation, as in the source. -/
def md5Round (w : List Nat) (i : Nat) : Nat × Nat × Nat × Nat → Nat × Nat × Nat × Nat
  | (A, B, C, D) =>
    let F := if i < 16 then Chi B C D
      else if i < 32 then Chi D B C
      else if i < 48 then B ^^^ C ^^^ D
      else C ^^^ (B ||| not32 D)
    let g := if i < 16 then i
      else if i < 32 then (5 * i + 1) % 16
      else if i < 48 then (3 * i + 5) % 16
      else 7 * i % 16
    let s := if i < 16 then [7, 12, 17, 22]
      else if i < 32 then [5, 9, 14, 20]
      else if i < 48 then [4, 11, 16, 23]
      else [6, 10, 15, 21]
    let T := (F + A + MD5_K.getD i 0 + w.getD g 0) % 2 ^ 32
    (D, (B + rotl T (s.getD (i % 4) 0)) % 2 ^ 32, B, C)

/-- The 64-round compression loop of `MD5.process`. -/
def md5Rounds (w : List Nat) (st : Nat × Nat × Nat × Nat) : Nat × Nat × Nat × Nat :=
  (List.range 64).foldl (fun t i => md5Round w i t) st

/-- Embedding of `MD5.process(view, offset)`.  The module-level scratch
buffer `MD5_W` is threaded explicitly as `w`.  The result carries the
updated instance, the scratch buffer after the 16 stores, and the input
view (which the source never writes to). -/
def MD5.process (st : MD5) (w view : List Nat) (offset : Nat) :
    Option (MD5 × List Nat × List Nat) :=
  match fillW view offset w with
  | none => none
  | some w2 =>
    match md5Rounds w2 (st.A, st.B, st.C, st.D) with
    | (a, b, c, d) =>
      some (st.set ((a + st.A) % 2 ^ 32) ((b + st.B) % 2 ^ 32)
        ((c + st.C) % 2 ^ 32) ((d + st.D) % 2 ^ 32), w2, view)

/-- Embedding of `MD5.roundClean`: `MD5_W.fill(0)`. -/
def MD5.roundClean (w : List Nat) : List Nat := List.replicate w.length 0

/-- Embedding of `MD5.destroy`: `this.set(0, 0, 0, 0)` followed by
`this.buffer.fill(0)`. -/
def MD5.destroy (st : MD5) : MD5 :=
  let st2 := st.set 0 0 0 0
  { st2 with buffer := List.replicate st2.buffer.length 0 }

/-- Two `MD5` instances next to the single module-level scratch buffer:
`md5.ts` declares `const MD5_W = new Uint32Array(16)` once, at module
scope, outside the class. -/
structure MD5ModuleWorld where
  md5W : List Nat
  inst1 : MD5
  inst2 : MD5

set_option linter.unusedVariables false in
/-- The scratch buffer that an instance's `process`/`roundClean`
actually address: for either instance it is the one module-level
`MD5_W`. -/
def scratchOf (wld : MD5ModuleWorld) (pickSecond : Bool) : List Nat := wld.md5W

set_option linter.unusedVariables false in
/-- Calling `roundClean` through instance 1 (`pickSecond = false`) or
through instance 2: either way `MD5_W.fill(0)` runs on the module-level
buffer and the instances' own fields are untouched. -/
def roundCleanOn (wld : MD5ModuleWorld) (pickSecond : Bool) : MD5ModuleWorld :=
  { wld with md5W := MD5.roundClean wld.md5W }

/-! ## The claimed compression function, written from the spec's words

The definitions below restate C1's algorithm description (phase table,
index function, shift groups, modular sums, feed-forward) independently
of the source embedding above, to be compared with it. -/

/-- Claimed word extraction: `W[i]` is the little-endian uint32 made of
bytes `block[4i .. 4i+3]`. -/
def specWord (block : List Nat) (i : Nat) : Nat :=
  block.getD (4 * i) 0 + block.getD (4 * i + 1) 0 * 2 ^ 8 +
    block.getD (4 * i + 2) 0 * 2 ^ 16 + block.getD (4 * i + 3) 0 * 2 ^ 24

/-- Claimed nonlinear function `F` by phase. -/
def specF (i b c d : Nat) : Nat :=
  if i < 16 then (b &&& c) ||| (not32 b &&& d)
  else if i < 32 then (d &&& b) ||| (not32 d &&& c)
  else if i < 48 then b ^^^ c ^^^ d
  else c ^^^ (b ||| not32 d)

/-- Claimed message-word index `g(i)` by phase. -/
def specG (i : Nat) : Nat :=
  if i < 16 then i
  else if i < 32 then (5 * i + 1) % 16
  else if i < 48 then (3 * i + 5) % 16
  else 7 * i % 16

/-- Claimed shift amount: `shiftGroup[i mod 4]` of the active phase. -/
def specShift (i : Nat) : Nat :=
  (if i < 16 then [7, 12, 17, 22]
    else if i < 32 then [5, 9, 14, 20]
    else if i < 48 then [4, 11, 16, 23]
    else [6, 10, 15, 21]).getD (i % 4) 0

/-- Claimed round `i`: `T = (F + A + K[i] + W[g(i)]) mod 2^32`, then
`A ← D`, `D ← C`, `C ← B`, `B ← (B + rotl32(T, shift)) mod 2^32`. -/
def specRound (block : List Nat) (i : Nat) :
    Nat × Nat × Nat × Nat → Nat × Nat × Nat × Nat
  | (a, b, c, d) =>
    let t := (specF i b c d + a + MD5_K.getD i 0 + specWord block (specG i)) % 2 ^ 32
    (d, (b + rotl t (specShift i)) % 2 ^ 32, b, c)

/-- Claimed compression function: 64 rounds followed by the
Davies-Meyer feed-forward into the pre-block state. -/
def md5CompressSpec (st : Nat × Nat × Nat × Nat) (block : List Nat) :
    Nat × Nat × Nat × Nat :=
  match st, (List.range 64).foldl (fun u i => specRound block i u) st with
  | (a0, b0, c0, d0), (a, b, c, d) =>
    ((a0 + a) % 2 ^ 32, (b0 + b) % 2 ^ 32, (c0 + c) % 2 ^ 32, (d0 + d) % 2 ^ 32)

/-! ## The digest pipeline around the core

The buffering engine (`HashMD` of `_md.js`) and the one-shot wrapper
(`wrapConstructor` of `utils.js`) are not among the given sources, so
the padding, block feeding and serialization below are modelled from
the spec. -/

/-- Modelled from the spec: Merkle-Damgard padding done by the external
engine (`HashMD`, not among the given sources): append `0x80`, zero-fill
so that the length is 56 mod 64, then the 64-bit little-endian bit
length. -/
def md5pad (msg : List Nat) : List Nat :=
  let zeros := (64 + 56 - (msg.length + 1) % 64) % 64
  msg ++ [0x80] ++ List.replicate zeros 0 ++
    (List.range 8).map (fun i => ((msg.length * 8) >>> (8 * i)) % 2 ^ 8)

/-- Split a padded message into its successive 64-byte blocks. -/
def toBlocks : Nat → List Nat → List (List Nat)
  | 0, _ => []
  | n + 1, l => l.take 64 :: toBlocks n (l.drop 64)

/-- Modelled from the spec: the external engine (not among the given
sources) delivers successive complete 64-byte blocks to `process`, in
order, and calls `roundClean` after each block. -/
def processBlocks : MD5 → List Nat → List (List Nat) → Option (MD5 × List Nat)
  | st, w, [] => some (st, w)
  | st, w, b :: bs =>
    match st.process w b 0 with
    | none => none
    | some (st2, w2, _) => processBlocks st2 (MD5.roundClean w2) bs

/-- Modelled from the spec: the engine (not among the given sources)
serializes the four state words as 16 output bytes, `A` first then `B`,
`C`, `D`, each word little-endian. -/
def serializeState (st : MD5) : List Nat :=
  [st.A, st.B, st.C, st.D].flatMap
    (fun x => (List.range 4).map (fun i => (x >>> (8 * i)) % 2 ^ 8))

/-- Modelled from the spec: the exported one-shot `md5` function
(`wrapConstructor`, not among the given sources): pad the message, feed
every 64-byte block through `process` on a fresh instance, serialize
the final state. -/
def md5 (msg : List Nat) : Option (List Nat) :=
  let padded := md5pad msg
  match processBlocks MD5.init (List.replicate 16 0) (toBlocks (padded.length / 64) padded) with
  | none => none
  | some (st, _) => some (serializeState st)

/-- ASCII bytes of a string, for the known-answer vectors. -/
def asciiBytes (s : String) : List Nat := s.data.map Char.toNat


/-! ## Dyadic interval arithmetic for the round-constant table

The claim that `MD5_K[i] = ⌊2^32 · |sin(i+1)|⌋` is settled with a small
verified evaluator: integer interval endpoints scaled by `dyS = 2^80`,
a cubic Taylor bracket for `sin` and `cos` of `(i+1)/2^20 ≤ 1`, and 20
verified double-angle steps back up to the angle `i + 1`. -/

/-- The dyadic scale `2 ^ 80` of all interval endpoints. -/
def dyS : ℤ := 1208925819614629174706176

/-- Rounding a quotient of integers toward minus infinity. -/
def divDown (n d : ℤ) : ℤ := n / d

/-- Rounding a quotient of integers toward plus infinity. -/
def divUp (n d : ℤ) : ℤ := -(-n / d)

/-- An interval of reals scaled by `dyS`: `[lo / dyS, hi / dyS]`. -/
structure DyItv where
  lo : ℤ
  hi : ℤ

def min4 (a b c d : ℤ) : ℤ := min (min a b) (min c d)

def max4 (a b c d : ℤ) : ℤ := max (max a b) (max c d)

/-- Lower endpoint of the product of the scaled intervals `[a, b]` and
`[c, d]`. -/
def mulLo (a b c d : ℤ) : ℤ := divDown (min4 (a * c) (a * d) (b * c) (b * d)) dyS

/-- Upper endpoint of the product of the scaled intervals `[a, b]` and
`[c, d]`. -/
def mulHi (a b c d : ℤ) : ℤ := divUp (max4 (a * c) (a * d) (b * c) (b * d)) dyS

/-- One double-angle step `sin 2t = 2 sin t cos t`,
`cos 2t = 1 - 2 sin² t` on scaled interval endpoints. -/
def dblStep (slo shi clo chi : ℤ) : DyItv × DyItv :=
  (⟨2 * mulLo slo shi clo chi, 2 * mulHi slo shi clo chi⟩,
   ⟨dyS - 2 * mulHi slo shi slo shi, dyS - 2 * mulLo slo shi slo shi⟩)

/-- Scaled interval brackets for the sine and cosine of `a / 2 ^ e`,
computed from the cubic Taylor polynomial at `a / 2 ^ (e + m)` followed
by `m` double-angle steps. -/
def sinCosDy (a : ℤ) : ℕ → ℕ → DyItv × DyItv
  | e, 0 =>
    let b : ℤ := 2 ^ e
    (⟨divDown (dyS * (96 * a * b ^ 3 - 16 * a ^ 3 * b - 5 * a ^ 4)) (96 * b ^ 4),
      divUp (dyS * (96 * a * b ^ 3 - 16 * a ^ 3 * b + 5 * a ^ 4)) (96 * b ^ 4)⟩,
     ⟨divDown (dyS * (96 * b ^ 4 - 48 * a ^ 2 * b ^ 2 - 5 * a ^ 4)) (96 * b ^ 4),
      divUp (dyS * (96 * b ^ 4 - 48 * a ^ 2 * b ^ 2 + 5 * a ^ 4)) (96 * b ^ 4)⟩)
  | e, m + 1 =>
    match sinCosDy a (e + 1) m with
    | (⟨slo, shi⟩, ⟨clo, chi⟩) => dblStep slo shi clo chi

/-- Absolute value of a scaled interval. -/
def DyItv.abs (I : DyItv) : DyItv :=
  if 0 ≤ I.lo then I
  else if I.hi ≤ 0 then ⟨-I.hi, -I.lo⟩
  else ⟨0, max (-I.lo) I.hi⟩

/-- Decidable certificate that `k ≤ 2^32 · |sin a| < k + 1`. -/
def checkK (a : ℤ) (m : ℕ) (k : ℤ) : Bool :=
  match (sinCosDy a 0 m).1.abs with
  | ⟨lo, hi⟩ => decide (k * dyS ≤ 4294967296 * lo) && decide (4294967296 * hi < (k + 1) * dyS)

/-- The certificate for all 64 entries of `MD5_K`. -/
def checkAll : Bool :=
  (List.range 64).all (fun i => checkK ((i : ℤ) + 1) 20 (MD5_K.getD i 0 : ℤ))

/-! ## Characterizing the word-load loop -/

theorem take_set_of_le {α : Type} (a : α) :
    ∀ (l : List α) (n m : Nat), m ≤ n → (l.set n a).take m = l.take m
  | [], _, _, _ => by simp
  | _ :: _, _, 0, _ => by simp
  | x :: xs, n + 1, m + 1, h => by
    simp only [List.set_cons_succ, List.take_succ_cons]
    rw [take_set_of_le a xs n m (by omega)]

theorem take_succ_set {α : Type} (a : α) :
    ∀ (l : List α) (i : Nat), i < l.length → (l.set i a).take (i + 1) = l.take i ++ [a]
  | [], i, h => by simp at h
  | x :: xs, 0, _ => by simp
  | x :: xs, i + 1, h => by
    simp only [List.set_cons_succ, List.take_succ_cons, List.cons_append]
    rw [take_succ_set a xs i (by simpa using h)]

theorem getUint32le_of_le {view : List Nat} {off : Nat} (h : off + 4 ≤ view.length) :
    getUint32le view off = some (leWordAt view off) := by
  simp [getUint32le, h]

theorem getUint32le_of_gt {view : List Nat} {off : Nat} (h : view.length < off + 4) :
    getUint32le view off = none := by
  unfold getUint32le
  rw [if_neg]
  omega

/-- When every read is in range, the load loop succeeds and overwrites
all the slots of the scratch buffer beyond the first `i` with the words
of the view. -/
theorem fillWGo_some (view : List Nat) :
    ∀ (k i off : Nat) (w : List Nat), w.length = 16 → i + k = 16 →
      off + 4 * k ≤ view.length →
      fillWGo view off i k w =
        some (w.take i ++ (List.range k).map (fun j => leWordAt view (off + 4 * j)))
  | 0, i, off, w, hw, hik, _ => by
    have hi : i = 16 := by omega
    subst hi
    rw [fillWGo]
    rw [List.range_zero, List.map_nil, List.append_nil, ← hw, List.take_length]
  | k + 1, i, off, w, hw, hik, hb => by
    have h4 : off + 4 ≤ view.length := by omega
    rw [fillWGo, getUint32le_of_le h4]
    show fillWGo view (off + 4) (i + 1) k (w.set i (leWordAt view off)) = _
    rw [fillWGo_some view k (i + 1) (off + 4) (w.set i (leWordAt view off))
      (by simp [hw]) (by omega) (by omega)]
    rw [take_succ_set _ w i (by omega), List.range_succ_eq_map, List.map_cons, List.map_map]
    have hmap : (List.range k).map (fun j => leWordAt view (off + 4 + 4 * j)) =
        (List.range k).map ((fun j => leWordAt view (off + 4 * j)) ∘ Nat.succ) := by
      refine List.map_congr_left (fun j _ => ?_)
      simp only [Function.comp]
      congr 1
      omega
    rw [hmap]
    simp only [Nat.mul_zero, Nat.add_zero, List.append_assoc, List.cons_append, List.nil_append]

/-- When the 64-byte window passes the end of the view, the load loop
hits an out-of-range read and fails. -/
theorem fillWGo_none (view : List Nat) :
    ∀ (k i off : Nat) (w : List Nat), 0 < k → view.length < off + 4 * k →
      fillWGo view off i k w = none
  | k + 1, i, off, w, _, hb => by
    by_cases h4 : off + 4 ≤ view.length
    · rw [fillWGo, getUint32le_of_le h4]
      show fillWGo view (off + 4) (i + 1) k (w.set i (leWordAt view off)) = none
      rcases Nat.eq_zero_or_pos k with hk | hk
      · exact absurd h4 (by omega)
      · exact fillWGo_none view k (i + 1) (off + 4) _ hk (by omega)
    · rw [fillWGo, getUint32le_of_gt (by omega)]

/-! ## The source round equals the claimed round -/

theorem specG_lt (i : Nat) : specG i < 16 := by
  unfold specG
  split
  · omega
  · split
    · exact Nat.mod_lt _ (by norm_num)
    · split
      · exact Nat.mod_lt _ (by norm_num)
      · exact Nat.mod_lt _ (by norm_num)

/-- The scratch buffer produced by the load loop, read at any index
below 16, yields the little-endian word of the view there. -/
theorem getD_loaded (view : List Nat) (off : Nat) {g : Nat} (hg : g < 16) :
    ((List.range 16).map (fun j => leWordAt view (off + 4 * j))).getD g 0 =
      leWordAt view (off + 4 * g) := by
  rw [List.getD_eq_getElem?_getD, List.getElem?_map, List.getElem?_range hg]
  rfl

theorem md5Round_eq_specRound (view : List Nat) (i : Nat) (st : Nat × Nat × Nat × Nat) :
    md5Round ((List.range 16).map (fun j => leWordAt view (0 + 4 * j))) i st =
      specRound view i st := by
  obtain ⟨a, b, c, d⟩ := st
  have hW : ∀ g : Nat, g < 16 →
      (((List.range 16).map (fun j => leWordAt view (0 + 4 * j))).getD g 0) =
        specWord view g := by
    intro g hg
    rw [getD_loaded view 0 hg]
    simp only [leWordAt, specWord, Nat.zero_add]
  by_cases h16 : i < 16
  · simp only [md5Round, specRound, specF, specG, specShift, if_pos h16, Chi]
    rw [hW i h16]
  · by_cases h32 : i < 32
    · simp only [md5Round, specRound, specF, specG, specShift, if_neg h16, if_pos h32, Chi]
      rw [hW _ (Nat.mod_lt _ (by norm_num))]
    · by_cases h48 : i < 48
      · simp only [md5Round, specRound, specF, specG, specShift, if_neg h16, if_neg h32,
          if_pos h48]
        rw [hW _ (Nat.mod_lt _ (by norm_num))]
      · simp only [md5Round, specRound, specF, specG, specShift, if_neg h16, if_neg h32,
          if_neg h48]
        rw [hW _ (Nat.mod_lt _ (by norm_num))]

theorem md5Rounds_eq_spec (view : List Nat) (st : Nat × Nat × Nat × Nat) :
    md5Rounds ((List.range 16).map (fun j => leWordAt view (0 + 4 * j))) st =
      (List.range 64).foldl (fun u i => specRound view i u) st := by
  unfold md5Rounds
  have hstep : (fun t i => md5Round ((List.range 16).map (fun j => leWordAt view (0 + 4 * j))) i t) =
      (fun t i => specRound view i t) := by
    funext t i
    exact md5Round_eq_specRound view i t
  rw [hstep]

/-- C1: for every `HashState` and well-formed 64-byte block, `process`
computes exactly the MD5 compression function of the claim: 16
little-endian words at offsets 0,4,...,60, 64 rounds with the claimed
phase table for `F`, `g(i)` and the shift groups, the modular sum `T`,
the state rotation, and the Davies-Meyer feed-forward into the
pre-block state. -/
theorem process_is_md5_compression (st : MD5) (w view : List Nat)
    (hw : w.length = 16) (hview : view.length = 64) :
    st.process w view 0 =
      some (⟨(md5CompressSpec (st.A, st.B, st.C, st.D) view).1,
        (md5CompressSpec (st.A, st.B, st.C, st.D) view).2.1,
        (md5CompressSpec (st.A, st.B, st.C, st.D) view).2.2.1,
        (md5CompressSpec (st.A, st.B, st.C, st.D) view).2.2.2, st.buffer⟩,
        (List.range 16).map (fun j => leWordAt view (0 + 4 * j)), view) := by
  unfold MD5.process fillW
  rw [fillWGo_some view 16 0 0 w hw rfl (by omega)]
  show (match md5Rounds (List.take 0 w ++ (List.range 16).map (fun j => leWordAt view (0 + 4 * j)))
      (st.A, st.B, st.C, st.D) with
    | (a, b, c, d) =>
      some (st.set ((a + st.A) % 2 ^ 32) ((b + st.B) % 2 ^ 32)
        ((c + st.C) % 2 ^ 32) ((d + st.D) % 2 ^ 32),
        List.take 0 w ++ (List.range 16).map (fun j => leWordAt view (0 + 4 * j)), view)) = _
  rw [List.take_zero, List.nil_append]
  rw [md5Rounds_eq_spec view (st.A, st.B, st.C, st.D)]
  rcases hfold : (List.range 64).foldl (fun u i => specRound view i u) (st.A, st.B, st.C, st.D)
    with ⟨a, b, c, d⟩
  simp only [md5CompressSpec, hfold, MD5.set]
  refine congrArg some (Prod.ext ?_ rfl)
  refine MD5.mk.injEq .. ▸ ⟨?_, ?_, ?_, ?_, rfl⟩ <;> simp <;> omega

/-- C1 witness: the theorem applied to the fresh instance, an all-zero
16-word scratch buffer and a concrete 64-byte block. -/
theorem process_is_md5_compression_witness :
    (List.replicate 16 0 : List Nat).length = 16 ∧
    (List.replicate 64 7 : List Nat).length = 64 ∧
    MD5.init.process (List.replicate 16 0) (List.replicate 64 7) 0 =
      some (⟨(md5CompressSpec (MD5.init.A, MD5.init.B, MD5.init.C, MD5.init.D)
          (List.replicate 64 7)).1,
        (md5CompressSpec (MD5.init.A, MD5.init.B, MD5.init.C, MD5.init.D)
          (List.replicate 64 7)).2.1,
        (md5CompressSpec (MD5.init.A, MD5.init.B, MD5.init.C, MD5.init.D)
          (List.replicate 64 7)).2.2.1,
        (md5CompressSpec (MD5.init.A, MD5.init.B, MD5.init.C, MD5.init.D)
          (List.replicate 64 7)).2.2.2, MD5.init.buffer⟩,
        (List.range 16).map (fun j => leWordAt (List.replicate 64 7) (0 + 4 * j)),
        List.replicate 64 7) :=
  ⟨by decide, by decide,
    process_is_md5_compression MD5.init (List.replicate 16 0) (List.replicate 64 7)
      (by decide) (by decide)⟩

/-- C2: the digest pipeline around the core (padding, per-block
compression, little-endian serialization) reproduces the three standard
MD5 known-answer vectors. -/
theorem md5_known_answer_vectors :
    md5 (asciiBytes "") =
      some [0xd4, 0x1d, 0x8c, 0xd9, 0x8f, 0x00, 0xb2, 0x04,
            0xe9, 0x80, 0x09, 0x98, 0xec, 0xf8, 0x42, 0x7e] ∧
    md5 (asciiBytes "abc") =
      some [0x90, 0x01, 0x50, 0x98, 0x3c, 0xd2, 0x4f, 0xb0,
            0xd6, 0x96, 0x3f, 0x7d, 0x28, 0xe1, 0x7f, 0x72] ∧
    md5 (asciiBytes "The quick brown fox jumps over the lazy dog") =
      some [0x9e, 0x10, 0x7d, 0x9d, 0x37, 0x2b, 0xb6, 0x82,
            0x6b, 0xd8, 0x1d, 0x35, 0x42, 0xa4, 0x19, 0xd6] :=
  ⟨by decide, by decide, by decide⟩

/-- C4: `set` stores each component truncated modulo `2^32`, leaves the
rest of the instance alone, and `get` is a pure read of the ordered
4-tuple, so `get` after `set` returns the arguments reduced mod `2^32`. -/
theorem get_set_contract (st : MD5) (a b c d : Nat) :
    (st.set a b c d).get = (a % 2 ^ 32, b % 2 ^ 32, c % 2 ^ 32, d % 2 ^ 32) ∧
    st.get = (st.A, st.B, st.C, st.D) ∧
    (st.set a b c d).buffer = st.buffer :=
  ⟨rfl, rfl, rfl⟩

/-- C5: after `destroy`, the four state words are zero and the retained
byte buffer is zero-filled. -/
theorem destroy_zeroizes (st : MD5) :
    st.destroy.A = 0 ∧ st.destroy.B = 0 ∧ st.destroy.C = 0 ∧ st.destroy.D = 0 ∧
      st.destroy.buffer = List.replicate st.buffer.length 0 :=
  ⟨rfl, rfl, rfl, rfl, rfl⟩

/-- C6: after `roundClean`, all 16 words of the scratch buffer read as
zero, and nothing else of the module state changes. -/
theorem roundClean_zeroizes (wld : MD5ModuleWorld) (pick : Bool)
    (h : wld.md5W.length = 16) :
    scratchOf (roundCleanOn wld pick) pick = List.replicate 16 0 ∧
      (roundCleanOn wld pick).inst1 = wld.inst1 ∧
      (roundCleanOn wld pick).inst2 = wld.inst2 := by
  refine ⟨?_, rfl, rfl⟩
  simp [scratchOf, roundCleanOn, MD5.roundClean, h]

/-- C6 witness: a concrete world with a dirty 16-word scratch buffer. -/
theorem roundClean_zeroizes_witness :
    (⟨List.replicate 16 5, MD5.init, MD5.init⟩ : MD5ModuleWorld).md5W.length = 16 ∧
    (scratchOf (roundCleanOn ⟨List.replicate 16 5, MD5.init, MD5.init⟩ true) true =
        List.replicate 16 0 ∧
      (roundCleanOn (⟨List.replicate 16 5, MD5.init, MD5.init⟩ : MD5ModuleWorld) true).inst1 =
        (⟨List.replicate 16 5, MD5.init, MD5.init⟩ : MD5ModuleWorld).inst1 ∧
      (roundCleanOn (⟨List.replicate 16 5, MD5.init, MD5.init⟩ : MD5ModuleWorld) true).inst2 =
        (⟨List.replicate 16 5, MD5.init, MD5.init⟩ : MD5ModuleWorld).inst2) :=
  ⟨by decide, roundClean_zeroizes ⟨List.replicate 16 5, MD5.init, MD5.init⟩ true (by decide)⟩

/-- C7: the state computed by `process` does not depend on the prior
contents of the scratch buffer: all 16 slots are overwritten from the
block before any slot is read, so any two initial scratch buffers give
the same result (including the failure cases). -/
theorem process_ignores_prior_scratch (st : MD5) (w1 w2 view : List Nat) (offset : Nat)
    (h1 : w1.length = 16) (h2 : w2.length = 16) :
    st.process w1 view offset = st.process w2 view offset := by
  unfold MD5.process fillW
  by_cases hb : offset + 4 * 16 ≤ view.length
  · rw [fillWGo_some view 16 0 offset w1 h1 rfl hb,
      fillWGo_some view 16 0 offset w2 h2 rfl hb]
    simp only [List.take_zero]
  · rw [fillWGo_none view 16 0 offset w1 (by omega) (by omega),
      fillWGo_none view 16 0 offset w2 (by omega) (by omega)]

/-- C7 witness: two different concrete initial scratch buffers. -/
theorem process_ignores_prior_scratch_witness :
    (List.replicate 16 3 : List Nat).length = 16 ∧
    (List.replicate 16 9 : List Nat).length = 16 ∧
    MD5.init.process (List.replicate 16 3) (List.replicate 64 1) 0 =
      MD5.init.process (List.replicate 16 9) (List.replicate 64 1) 0 :=
  ⟨by decide, by decide,
    process_ignores_prior_scratch MD5.init (List.replicate 16 3) (List.replicate 16 9)
      (List.replicate 64 1) 0 (by decide) (by decide)⟩

/-- C9: a block shorter than 64 bytes, or an offset whose 64-byte window
passes the end of the view, makes `process` fail with the bounds-check
fault (`none`): no hash result, no silent truncation or zero-padding. -/
theorem process_out_of_bounds_none (st : MD5) (w view : List Nat) (offset : Nat)
    (h : view.length < offset + 64) :
    st.process w view offset = none := by
  unfold MD5.process fillW
  rw [fillWGo_none view 16 0 offset w (by omega) (by omega)]

/-- C9 witness: a 63-byte block at offset 0. -/
theorem process_out_of_bounds_none_witness :
    (List.replicate 63 0 : List Nat).length < 0 + 64 ∧
    MD5.init.process (List.replicate 16 0) (List.replicate 63 0) 0 = none :=
  ⟨by decide,
    process_out_of_bounds_none MD5.init (List.replicate 16 0) (List.replicate 63 0) 0
      (by decide)⟩

/-- C10: whenever `process` succeeds, the input view comes back
unchanged and the only instance fields it modified are the four state
words: the retained buffer is untouched. -/
theorem process_writes_only_state (st : MD5) (w view : List Nat) (offset : Nat)
    (st2 : MD5) (w2 view2 : List Nat)
    (h : st.process w view offset = some (st2, w2, view2)) :
    view2 = view ∧ st2.buffer = st.buffer := by
  unfold MD5.process at h
  rcases hf : fillW view offset w with _ | wf
  · rw [hf] at h
    exact absurd h (by simp)
  · rw [hf] at h
    have h2 : (match md5Rounds wf (st.A, st.B, st.C, st.D) with
      | (a, b, c, d) => some (st.set ((a + st.A) % 2 ^ 32) ((b + st.B) % 2 ^ 32)
          ((c + st.C) % 2 ^ 32) ((d + st.D) % 2 ^ 32), wf, view)) = some (st2, w2, view2) := h
    rcases hr : md5Rounds wf (st.A, st.B, st.C, st.D) with ⟨a, b, c, d⟩
    rw [hr] at h2
    simp only [MD5.set, Option.some.injEq, Prod.mk.injEq] at h2
    refine ⟨h2.2.2.symm, ?_⟩
    rw [← h2.1]

/-- C10 witness: a concrete successful `process` call. -/
theorem process_writes_only_state_witness :
    MD5.init.process (List.replicate 16 7) (List.replicate 64 0) 0 =
      some (⟨52370860, 1856343760, 531326903, 1949398929, List.replicate 64 0⟩,
        List.replicate 16 0, List.replicate 64 0) ∧
    ((List.replicate 64 0 : List Nat) = List.replicate 64 0 ∧
      (⟨52370860, 1856343760, 531326903, 1949398929, List.replicate 64 0⟩ : MD5).buffer =
        MD5.init.buffer) :=
  ⟨by decide,
    process_writes_only_state MD5.init (List.replicate 16 7) (List.replicate 64 0) 0
      ⟨52370860, 1856343760, 531326903, 1949398929, List.replicate 64 0⟩
      (List.replicate 16 0) (List.replicate 64 0) (by decide)⟩

/-- C8 counterexample: the scratch buffer is not instance-owned.
Calling `roundClean` through instance 1 changes the scratch buffer that
instance 2 addresses, because `md5.ts` declares a single module-level
`MD5_W` shared by every instance. -/
theorem scratch_not_instance_owned :
    scratchOf (roundCleanOn ⟨List.replicate 16 1, MD5.init, MD5.init⟩ false) true ≠
      scratchOf (⟨List.replicate 16 1, MD5.init, MD5.init⟩ : MD5ModuleWorld) true := by
  decide

/-- C8 amended: the `MessageSchedule` scratch buffer is module-level and
shared: every instance addresses the same buffer, it is reused across
`process` calls, and operating on it through one instance acts on the
buffer seen by the other while leaving both instances' own fields
unchanged. -/
theorem scratch_module_shared (wld : MD5ModuleWorld) (p q : Bool) :
    scratchOf wld p = scratchOf wld q ∧
      scratchOf (roundCleanOn wld p) q = MD5.roundClean wld.md5W ∧
      (roundCleanOn wld p).inst1 = wld.inst1 ∧
      (roundCleanOn wld p).inst2 = wld.inst2 :=
  ⟨rfl, rfl, rfl, rfl⟩

/-! ## Soundness of the interval evaluator, and claim C3 -/

theorem dyS_pos : (0 : ℤ) < dyS := by decide

theorem divDown_mul_le {n d : ℤ} (hd : 0 < d) : divDown n d * d ≤ n := by
  have h := Int.ediv_add_emod n d
  have h2 := Int.emod_nonneg n (by omega : d ≠ 0)
  unfold divDown
  linarith [mul_comm (n / d) d]

theorem le_divUp_mul {n d : ℤ} (hd : 0 < d) : n ≤ divUp n d * d := by
  have h := Int.ediv_add_emod (-n) d
  have h2 := Int.emod_nonneg (-n) (by omega : d ≠ 0)
  unfold divUp
  linarith [mul_comm (-n / d) d]

/-- Corner bound: the product of two bracketed reals lies between the
least and greatest of the four endpoint products. -/
theorem corner_bounds {x y a b c d : ℝ} (hx1 : a ≤ x) (hx2 : x ≤ b)
    (hy1 : c ≤ y) (hy2 : y ≤ d) :
    min (min (a * c) (a * d)) (min (b * c) (b * d)) ≤ x * y ∧
      x * y ≤ max (max (a * c) (a * d)) (max (b * c) (b * d)) := by
  constructor
  · rcases le_total 0 y with hy0 | hy0
    · rcases le_total 0 a with ha | ha
      · exact le_trans (le_trans (min_le_left _ _) (min_le_left _ _))
          (le_trans (mul_le_mul_of_nonneg_left hy1 ha) (mul_le_mul_of_nonneg_right hx1 hy0))
      · exact le_trans (le_trans (min_le_left _ _) (min_le_right _ _))
          (le_trans (mul_le_mul_of_nonpos_left hy2 ha) (mul_le_mul_of_nonneg_right hx1 hy0))
    · rcases le_total 0 b with hb | hb
      · exact le_trans (le_trans (min_le_right _ _) (min_le_left _ _))
          (le_trans (mul_le_mul_of_nonneg_left hy1 hb) (mul_le_mul_of_nonpos_right hx2 hy0))
      · exact le_trans (le_trans (min_le_right _ _) (min_le_right _ _))
          (le_trans (mul_le_mul_of_nonpos_left hy2 hb) (mul_le_mul_of_nonpos_right hx2 hy0))
  · rcases le_total 0 y with hy0 | hy0
    · rcases le_total 0 b with hb | hb
      · exact le_trans (le_trans (mul_le_mul_of_nonneg_right hx2 hy0)
          (mul_le_mul_of_nonneg_left hy2 hb))
          (le_trans (le_max_right _ _) (le_max_right _ _))
      · exact le_trans (le_trans (mul_le_mul_of_nonneg_right hx2 hy0)
          (mul_le_mul_of_nonpos_left hy1 hb))
          (le_trans (le_max_left _ _) (le_max_right _ _))
    · rcases le_total 0 a with ha | ha
      · exact le_trans (le_trans (mul_le_mul_of_nonpos_right hx1 hy0)
          (mul_le_mul_of_nonneg_left hy2 ha))
          (le_trans (le_max_right _ _) (le_max_left _ _))
      · exact le_trans (le_trans (mul_le_mul_of_nonpos_right hx1 hy0)
          (mul_le_mul_of_nonpos_left hy1 ha))
          (le_trans (le_max_left _ _) (le_max_left _ _))

theorem dySR_pos : (0 : ℝ) < (dyS : ℝ) := by exact_mod_cast dyS_pos

/-- Soundness of the scaled interval product. -/
theorem mulLo_mulHi_sound {x y : ℝ} {a b c d : ℤ}
    (hx1 : (a : ℝ) ≤ x * dyS) (hx2 : x * dyS ≤ b)
    (hy1 : (c : ℝ) ≤ y * dyS) (hy2 : y * dyS ≤ d) :
    ((mulLo a b c d : ℤ) : ℝ) ≤ x * y * dyS ∧ x * y * dyS ≤ ((mulHi a b c d : ℤ) : ℝ) := by
  obtain ⟨h1, h2⟩ := corner_bounds hx1 hx2 hy1 hy2
  constructor
  · have hint : mulLo a b c d * dyS ≤ min4 (a * c) (a * d) (b * c) (b * d) :=
      divDown_mul_le dyS_pos
    have hcast : ((mulLo a b c d : ℤ) : ℝ) * dyS ≤
        ((min4 (a * c) (a * d) (b * c) (b * d) : ℤ) : ℝ) := by exact_mod_cast hint
    have hmin : ((min4 (a * c) (a * d) (b * c) (b * d) : ℤ) : ℝ) =
        min (min ((a : ℝ) * c) ((a : ℝ) * d)) (min ((b : ℝ) * c) ((b : ℝ) * d)) := by
      unfold min4
      push_cast
      rfl
    have h3 : ((mulLo a b c d : ℤ) : ℝ) * dyS ≤ (x * y * dyS) * dyS := by
      rw [hmin] at hcast
      nlinarith [le_trans hcast h1]
    exact le_of_mul_le_mul_right h3 dySR_pos
  · have hint : max4 (a * c) (a * d) (b * c) (b * d) ≤ mulHi a b c d * dyS :=
      le_divUp_mul dyS_pos
    have hcast : ((max4 (a * c) (a * d) (b * c) (b * d) : ℤ) : ℝ) ≤
        ((mulHi a b c d : ℤ) : ℝ) * dyS := by exact_mod_cast hint
    have hmax : ((max4 (a * c) (a * d) (b * c) (b * d) : ℤ) : ℝ) =
        max (max ((a : ℝ) * c) ((a : ℝ) * d)) (max ((b : ℝ) * c) ((b : ℝ) * d)) := by
      unfold max4
      push_cast
      rfl
    have h3 : (x * y * dyS) * dyS ≤ ((mulHi a b c d : ℤ) : ℝ) * dyS := by
      rw [hmax] at hcast
      nlinarith [le_trans h2 hcast]
    exact le_of_mul_le_mul_right h3 dySR_pos

/-- Soundness of one double-angle step. -/
theorem dblStep_sound {t : ℝ} {slo shi clo chi : ℤ}
    (hs1 : (slo : ℝ) ≤ Real.sin t * dyS) (hs2 : Real.sin t * dyS ≤ shi)
    (hc1 : (clo : ℝ) ≤ Real.cos t * dyS) (hc2 : Real.cos t * dyS ≤ chi) :
    (((dblStep slo shi clo chi).1.lo : ℤ) : ℝ) ≤ Real.sin (2 * t) * dyS ∧
    Real.sin (2 * t) * dyS ≤ (((dblStep slo shi clo chi).1.hi : ℤ) : ℝ) ∧
    (((dblStep slo shi clo chi).2.lo : ℤ) : ℝ) ≤ Real.cos (2 * t) * dyS ∧
    Real.cos (2 * t) * dyS ≤ (((dblStep slo shi clo chi).2.hi : ℤ) : ℝ) := by
  obtain ⟨hm1, hm2⟩ := mulLo_mulHi_sound hs1 hs2 hc1 hc2
  obtain ⟨hq1, hq2⟩ := mulLo_mulHi_sound hs1 hs2 hs1 hs2
  have hsin2 : Real.sin (2 * t) = 2 * Real.sin t * Real.cos t := Real.sin_two_mul t
  have hcos2 : Real.cos (2 * t) = 1 - 2 * (Real.sin t * Real.sin t) := by
    have h1 := Real.cos_two_mul t
    have h2 := Real.sin_sq_add_cos_sq t
    nlinarith [h1, h2]
  unfold dblStep
  simp only
  push_cast
  refine ⟨?_, ?_, ?_, ?_⟩
  · rw [hsin2]
    nlinarith [hm1]
  · rw [hsin2]
    nlinarith [hm2]
  · rw [hcos2]
    nlinarith [hq2]
  · rw [hcos2]
    nlinarith [hq1]

/-- A rounded-down scaled quotient under-approximates any real above the
exact quotient. -/
theorem dyDown_le_of_le {q D : ℤ} {v : ℝ} (hD : 0 < D) (hv : (q : ℝ) / (D : ℝ) ≤ v) :
    ((divDown (dyS * q) D : ℤ) : ℝ) ≤ v * dyS := by
  have hDR : (0 : ℝ) < (D : ℝ) := by exact_mod_cast hD
  have hSR : (0 : ℝ) ≤ (dyS : ℝ) := le_of_lt dySR_pos
  have h1R : ((divDown (dyS * q) D : ℤ) : ℝ) * D ≤ (dyS : ℝ) * q := by
    exact_mod_cast divDown_mul_le hD
  have h2 : (q : ℝ) ≤ v * D := (div_le_iff₀ hDR).mp hv
  have h4 : ((divDown (dyS * q) D : ℤ) : ℝ) * D ≤ (v * dyS) * D := by nlinarith
  exact le_of_mul_le_mul_right h4 hDR

/-- A rounded-up scaled quotient over-approximates any real below the
exact quotient. -/
theorem le_dyUp_of_ge {q D : ℤ} {v : ℝ} (hD : 0 < D) (hv : v ≤ (q : ℝ) / (D : ℝ)) :
    v * dyS ≤ ((divUp (dyS * q) D : ℤ) : ℝ) := by
  have hDR : (0 : ℝ) < (D : ℝ) := by exact_mod_cast hD
  have hSR : (0 : ℝ) ≤ (dyS : ℝ) := le_of_lt dySR_pos
  have h1R : (dyS : ℝ) * q ≤ ((divUp (dyS * q) D : ℤ) : ℝ) * D := by
    exact_mod_cast le_divUp_mul hD
  have h2 : v * D ≤ (q : ℝ) := (le_div_iff₀ hDR).mp hv
  have h4 : (v * dyS) * D ≤ ((divUp (dyS * q) D : ℤ) : ℝ) * D := by nlinarith
  exact le_of_mul_le_mul_right h4 hDR

/-- Soundness of the cubic-Taylor base interval for `sin` and `cos` of
`a / 2 ^ e ∈ [0, 1]`. -/
theorem sinCosDy_base_sound {a : ℤ} {e : ℕ} (h0 : 0 ≤ a) (h1 : a ≤ 2 ^ e) :
    (((sinCosDy a e 0).1.lo : ℤ) : ℝ) ≤ Real.sin ((a : ℝ) / 2 ^ e) * dyS ∧
    Real.sin ((a : ℝ) / 2 ^ e) * dyS ≤ (((sinCosDy a e 0).1.hi : ℤ) : ℝ) ∧
    (((sinCosDy a e 0).2.lo : ℤ) : ℝ) ≤ Real.cos ((a : ℝ) / 2 ^ e) * dyS ∧
    Real.cos ((a : ℝ) / 2 ^ e) * dyS ≤ (((sinCosDy a e 0).2.hi : ℤ) : ℝ) := by
  have hb : (0 : ℝ) < (2 : ℝ) ^ e := by positivity
  have hbZ : (0 : ℤ) < 2 ^ e := by positivity
  have ha : (0 : ℝ) ≤ (a : ℝ) := by exact_mod_cast h0
  have hx0 : 0 ≤ (a : ℝ) / 2 ^ e := by positivity
  have hx1 : (a : ℝ) / 2 ^ e ≤ 1 := by
    rw [div_le_one hb]
    exact_mod_cast h1
  have habs : |(a : ℝ) / 2 ^ e| ≤ 1 := by
    rw [abs_of_nonneg hx0]
    exact hx1
  have hs := abs_le.mp (Real.sin_bound habs)
  have hc := abs_le.mp (Real.cos_bound habs)
  rw [abs_of_nonneg hx0] at hs hc
  have hD : (0 : ℤ) < 96 * (2 ^ e : ℤ) ^ 4 := by positivity
  have hDcast : ((96 * (2 ^ e : ℤ) ^ 4 : ℤ) : ℝ) = 96 * ((2 : ℝ) ^ e) ^ 4 := by push_cast; ring
  unfold sinCosDy
  simp only
  refine ⟨?_, ?_, ?_, ?_⟩
  · apply dyDown_le_of_le hD
    rw [hDcast]
    have hid : ((96 * a * (2 ^ e : ℤ) ^ 3 - 16 * a ^ 3 * (2 ^ e : ℤ) - 5 * a ^ 4 : ℤ) : ℝ) /
        (96 * ((2 : ℝ) ^ e) ^ 4) =
        (a : ℝ) / 2 ^ e - ((a : ℝ) / 2 ^ e) ^ 3 / 6 - ((a : ℝ) / 2 ^ e) ^ 4 * (5 / 96) := by
      push_cast
      field_simp
      ring
    rw [hid]
    nlinarith [hs.1]
  · apply le_dyUp_of_ge hD
    rw [hDcast]
    have hid : ((96 * a * (2 ^ e : ℤ) ^ 3 - 16 * a ^ 3 * (2 ^ e : ℤ) + 5 * a ^ 4 : ℤ) : ℝ) /
        (96 * ((2 : ℝ) ^ e) ^ 4) =
        (a : ℝ) / 2 ^ e - ((a : ℝ) / 2 ^ e) ^ 3 / 6 + ((a : ℝ) / 2 ^ e) ^ 4 * (5 / 96) := by
      push_cast
      field_simp
      ring
    rw [hid]
    nlinarith [hs.2]
  · apply dyDown_le_of_le hD
    rw [hDcast]
    have hid : ((96 * (2 ^ e : ℤ) ^ 4 - 48 * a ^ 2 * (2 ^ e : ℤ) ^ 2 - 5 * a ^ 4 : ℤ) : ℝ) /
        (96 * ((2 : ℝ) ^ e) ^ 4) =
        1 - ((a : ℝ) / 2 ^ e) ^ 2 / 2 - ((a : ℝ) / 2 ^ e) ^ 4 * (5 / 96) := by
      push_cast
      field_simp
      ring
    rw [hid]
    nlinarith [hc.1]
  · apply le_dyUp_of_ge hD
    rw [hDcast]
    have hid : ((96 * (2 ^ e : ℤ) ^ 4 - 48 * a ^ 2 * (2 ^ e : ℤ) ^ 2 + 5 * a ^ 4 : ℤ) : ℝ) /
        (96 * ((2 : ℝ) ^ e) ^ 4) =
        1 - ((a : ℝ) / 2 ^ e) ^ 2 / 2 + ((a : ℝ) / 2 ^ e) ^ 4 * (5 / 96) := by
      push_cast
      field_simp
      ring
    rw [hid]
    nlinarith [hc.2]

/-- Soundness of the halving-and-doubling interval computation: for
`0 ≤ a ≤ 2 ^ (e + m)`, `sinCosDy a e m` brackets the scaled sine and
cosine of `a / 2 ^ e`. -/
theorem sinCosDy_sound {a : ℤ} (h0 : 0 ≤ a) :
    ∀ (m e : ℕ), a ≤ 2 ^ (e + m) →
      (((sinCosDy a e m).1.lo : ℤ) : ℝ) ≤ Real.sin ((a : ℝ) / 2 ^ e) * dyS ∧
      Real.sin ((a : ℝ) / 2 ^ e) * dyS ≤ (((sinCosDy a e m).1.hi : ℤ) : ℝ) ∧
      (((sinCosDy a e m).2.lo : ℤ) : ℝ) ≤ Real.cos ((a : ℝ) / 2 ^ e) * dyS ∧
      Real.cos ((a : ℝ) / 2 ^ e) * dyS ≤ (((sinCosDy a e m).2.hi : ℤ) : ℝ)
  | 0, e, h1 => sinCosDy_base_sound h0 (by simpa using h1)
  | m + 1, e, h1 => by
    obtain ⟨ih1, ih2, ih3, ih4⟩ := sinCosDy_sound h0 m (e + 1)
      (by rw [show e + 1 + m = e + (m + 1) from by omega]; exact h1)
    have hang : (a : ℝ) / 2 ^ e = 2 * ((a : ℝ) / 2 ^ (e + 1)) := by
      rw [pow_succ]
      field_simp
      ring
    rcases hsc : sinCosDy a (e + 1) m with ⟨⟨slo, shi⟩, ⟨clo, chi⟩⟩
    rw [hsc] at ih1 ih2 ih3 ih4
    have hstep : sinCosDy a e (m + 1) = dblStep slo shi clo chi := by
      rw [sinCosDy, hsc]
    rw [hstep, hang]
    exact dblStep_sound ih1 ih2 ih3 ih4

/-- Soundness of the interval absolute value. -/
theorem dyAbs_sound {x : ℝ} {I : DyItv} (h1 : ((I.lo : ℤ) : ℝ) ≤ x * dyS)
    (h2 : x * dyS ≤ ((I.hi : ℤ) : ℝ)) :
    ((I.abs.lo : ℤ) : ℝ) ≤ |x| * dyS ∧ |x| * dyS ≤ ((I.abs.hi : ℤ) : ℝ) := by
  have habs : |x| * dyS = |x * dyS| := by
    rw [abs_mul, abs_of_pos dySR_pos]
  rw [habs]
  unfold DyItv.abs
  split_ifs with hlo hhi
  · have hloR : (0 : ℝ) ≤ (I.lo : ℝ) := by exact_mod_cast hlo
    rw [abs_of_nonneg (by linarith)]
    exact ⟨h1, h2⟩
  · have hhiR : ((I.hi : ℤ) : ℝ) ≤ 0 := by exact_mod_cast hhi
    rw [abs_of_nonpos (by linarith)]
    constructor
    · push_cast
      linarith
    · push_cast
      linarith
  · constructor
    · push_cast
      positivity
    · push_cast
      rcases le_total 0 (x * (dyS : ℝ)) with hx | hx
      · rw [abs_of_nonneg hx]
        exact le_max_of_le_right h2
      · rw [abs_of_nonpos hx]
        refine le_max_of_le_left ?_
        linarith

/-- Soundness of the per-constant check: `checkK a m k = true` certifies
`⌊2^32 |sin a|⌋ = k`. -/
theorem checkK_sound {a k : ℤ} {m : ℕ} (h0 : 0 ≤ a) (ha : a ≤ 2 ^ m)
    (hc : checkK a m k = true) :
    ⌊(2 ^ 32 : ℝ) * |Real.sin (a : ℝ)|⌋ = k := by
  have hsound := sinCosDy_sound h0 m 0 (by simpa using ha)
  have hang : ((a : ℝ) / 2 ^ (0 : ℕ)) = (a : ℝ) := by norm_num
  rw [hang] at hsound
  obtain ⟨hb1, hb2⟩ := dyAbs_sound hsound.1 hsound.2.1
  unfold checkK at hc
  rcases habs : (sinCosDy a 0 m).1.abs with ⟨lo, hi⟩
  rw [habs] at hc hb1 hb2
  rw [Bool.and_eq_true, decide_eq_true_eq, decide_eq_true_eq] at hc
  obtain ⟨hc1, hc2⟩ := hc
  rw [Int.floor_eq_iff]
  have hc1R : ((k : ℝ)) * dyS ≤ (4294967296 : ℝ) * lo := by exact_mod_cast hc1
  have hc2R : (4294967296 : ℝ) * hi < ((k : ℝ) + 1) * dyS := by exact_mod_cast hc2
  constructor
  · have h5 : (k : ℝ) * dyS ≤ (2 ^ 32 * |Real.sin (a : ℝ)|) * dyS := by
      calc (k : ℝ) * dyS ≤ (4294967296 : ℝ) * lo := hc1R
        _ ≤ 4294967296 * (|Real.sin (a : ℝ)| * dyS) := by nlinarith [hb1]
        _ = (2 ^ 32 * |Real.sin (a : ℝ)|) * dyS := by norm_num; ring
    exact le_of_mul_le_mul_right h5 dySR_pos
  · have h5 : (2 ^ 32 * |Real.sin (a : ℝ)|) * dyS < ((k : ℝ) + 1) * dyS := by
      calc (2 ^ 32 * |Real.sin (a : ℝ)|) * dyS = 4294967296 * (|Real.sin (a : ℝ)| * dyS) := by
            norm_num; ring
        _ ≤ (4294967296 : ℝ) * hi := by nlinarith [hb2]
        _ < ((k : ℝ) + 1) * dyS := hc2R
    exact lt_of_mul_lt_mul_right h5 (le_of_lt dySR_pos)

set_option maxRecDepth 100000 in
set_option maxHeartbeats 12000000 in
theorem checkAll_eq : checkAll = true := by decide

theorem md5K_table (i : ℕ) (h : i < 64) :
    ⌊(2 ^ 32 : ℝ) * |Real.sin ((i : ℝ) + 1)|⌋ = (MD5_K.getD i 0 : ℤ) := by
  have hall := checkAll_eq
  unfold checkAll at hall
  rw [List.all_eq_true] at hall
  have hc : checkK ((i : ℤ) + 1) 20 (MD5_K.getD i 0 : ℤ) = true :=
    hall i (List.mem_range.mpr h)
  have h0 : (0 : ℤ) ≤ (i : ℤ) + 1 := by positivity
  have ha : ((i : ℤ) + 1) ≤ 2 ^ 20 := by
    have : (i : ℤ) < 64 := by exact_mod_cast h
    omega
  have hres := checkK_sound h0 ha hc
  have hcast : (((i : ℤ) + 1 : ℤ) : ℝ) = (i : ℝ) + 1 := by push_cast; ring
  rw [hcast] at hres
  exact hres

/-- C3: the round-constant table is a fixed sequence of 64 unsigned
32-bit values, and for every `i` in `0..63` the `i`-th entry equals
`⌊2^32 · |sin(i+1)|⌋` (radians). -/
theorem md5_K_is_sine_table :
    MD5_K.length = 64 ∧ (∀ k ∈ MD5_K, k < 2 ^ 32) ∧
    ∀ i, i < 64 → (MD5_K.getD i 0 : ℤ) = ⌊(2 ^ 32 : ℝ) * |Real.sin ((i : ℝ) + 1)|⌋ := by
  refine ⟨by decide, by decide, ?_⟩
  intro i h
  exact (md5K_table i h).symm

/-- C3 witness: the first entry. -/
theorem md5_K_is_sine_table_witness :
    (0 : ℕ) < 64 ∧
    (MD5_K.getD 0 0 : ℤ) = ⌊(2 ^ 32 : ℝ) * |Real.sin (((0 : ℕ) : ℝ) + 1)|⌋ :=
  ⟨by decide, md5_K_is_sine_table.2.2 0 (by decide)⟩
